import Mathlib

/-!
Verification development for the node-celery-ts core: shallow embeddings of
the keyed future map (`PromiseMap`, in its two revisions present in the
repository), the bounded resource pool (`ResourcePool`), the task envelope
builder (`Task`), the round-robin failover strategy, the AMQP broker's
queue/exchange assertions, and the Redis result backend's `get` fallback.

Conventions of the embedding:
- JavaScript `Map` objects are modelled as insertion-ordered association
  lists (`alSet` replaces in place like `Map#set`, `alErase` removes).
- A JavaScript `Promise` is modelled by an index into a heap of eventual
  outcomes (`Outcome`): `unset` is a promise that has not settled, and a
  settled promise is frozen (settling is once-only, `settleHeap`).
- Thrown `Error`s are modelled by `Except`/`Option` error values of type
  `PMErr`; rejection reasons are strings.
- Values passed to `resolve` are plain values (not thenables), as in the
  claims under verification.
-/

/-- Insertion-ordered association-list update, mirroring `Map#set`:
replaces the binding in place if the key is present, appends otherwise. -/
def alSet {K A : Type} [DecidableEq K] : List (K × A) → K → A → List (K × A)
  | [], k, a => [(k, a)]
  | (k', a') :: t, k, a =>
    if k' = k then (k, a) :: t else (k', a') :: alSet t k a

/-- Association-list lookup, mirroring `Map#get`. -/
def alGet {K A : Type} [DecidableEq K] : List (K × A) → K → Option A
  | [], _ => none
  | (k', a') :: t, k => if k' = k then some a' else alGet t k

/-- Association-list removal, mirroring `Map#delete`. -/
def alErase {K A : Type} [DecidableEq K] : List (K × A) → K → List (K × A)
  | [], _ => []
  | (k', a') :: t, k => if k' = k then t else (k', a') :: alErase t k

/-- Eventual outcome of a promise: not yet settled, fulfilled with a value,
or rejected with a reason (reasons are the `Error` messages of the source). -/
inductive Outcome (V : Type)
  | unset
  | value (v : V)
  | errored (reason : String)
deriving DecidableEq, Repr

/-- Settle a promise in the heap. A promise settles at most once: if the
slot already holds a settled outcome, the call is a no-op, mirroring the
once-only semantics of `resolve`/`reject` handed out by the `Promise`
constructor. -/
def settleHeap {V : Type} (heap : List (Outcome V)) (p : Nat) (o : Outcome V) :
    List (Outcome V) :=
  match heap[p]? with
  | some .unset => heap.set p o
  | _ => heap

/-- Status tag of a `PromiseMap` control block (`enum State` in the source). -/
inductive PState
  | pending
  | fulfilled
  | rejected
deriving DecidableEq, Repr

/-- Errors thrown by the legacy `PromiseMap` (src/src/containers/promise_map.ts).
The constructors correspond to the `throw new Error(...)` sites:
`promise is undefined for key`, `data is undefined for key`,
`cannot resolve key: already settled`, `cannot reject key: already settled`. -/
inductive PMErr
  | promiseUndefined
  | dataUndefined
  | alreadyResolved
  | alreadyRejected
deriving DecidableEq, Repr

/-- Control block of a map entry (`interface MapData` in the source).
`functions` holds the settle capability of the consumer-facing promise when
present; it is modelled by the heap index of that promise. The `timer`
field is omitted: the maps under verification are constructed without a
TTL (`timeout` undefined), so `setTimeout` never arms a timer. -/
structure MapData where
  functions : Option Nat
  status : PState
deriving DecidableEq, Repr

namespace PromiseMapNew

/-!
Shallow embedding of the current rewrite of `PromiseMap`
(src/unnamed/part_015). Each public operation is modelled atomically: the
continuation of `doResolve`'s `await value` (which records the Fulfilled
status) is deferred to a microtask in the source; since `value` here is a
plain value, that microtask runs as soon as the synchronous call returns,
and the model folds it into the operation.
-/

/-- State of the rewritten `PromiseMap`: the `promises` and `data` maps of
the class, plus the promise heap backing the promise objects. -/
structure St (K V : Type) where
  promises : List (K × Nat)
  data : List (K × MapData)
  heap : List (Outcome V)
deriving DecidableEq, Repr

variable {K V : Type} [DecidableEq K]

/-- Empty map (the constructor). -/
def empty : St K V := ⟨[], [], []⟩

/-- Embedding of `PromiseMap#get` (part_015): if a promise for the key
exists, return it; otherwise install a fresh pending promise whose settle
capability is stored in the control block. Returns the heap index of the
promise handed to the caller. -/
def get (s : St K V) (k : K) : Nat × St K V :=
  match alGet s.promises k with
  | some p => (p, s)
  | none =>
    let p := s.heap.length
    (p, { promises := alSet s.promises k p
          data := alSet s.data k ⟨some p, .pending⟩
          heap := s.heap ++ [Outcome.unset] })

/-- Embedding of `PromiseMap#resolve` (part_015) for a plain value.
If the key is absent, `resolveNew` installs a fresh promise fulfilled with
the value. If present and the control block still holds settle functions,
`resolveExisting` settles the stored consumer promise; otherwise it
replaces the stored promise with a fresh one following the value. In all
cases `doResolve`'s continuation then marks the entry Fulfilled. Returns
`true` iff a new entry was inserted (the source's `!hasKey`). This
function is total: the rewrite's `resolve` has no `throw` site. -/
def resolve (s : St K V) (k : K) (v : V) : Bool × St K V :=
  match alGet s.data k with
  | some d =>
    let s' :=
      match d.functions with
      | some p =>
        { s with heap := settleHeap s.heap p (.value v)
                 data := alSet s.data k ⟨none, .pending⟩ }
      | none =>
        let q := s.heap.length
        { promises := alSet s.promises k q
          data := alSet s.data k ⟨none, .pending⟩
          heap := s.heap ++ [Outcome.value v] }
    (false, { s' with data := alSet s'.data k ⟨none, .fulfilled⟩ })
  | none =>
    let q := s.heap.length
    (true, { promises := alSet s.promises k q
             data := alSet s.data k ⟨none, .fulfilled⟩
             heap := s.heap ++ [Outcome.value v] })

/-- Embedding of `PromiseMap#reject` (part_015). Symmetric to `resolve`,
but with no deferred continuation: the Rejected status is recorded
synchronously. -/
def reject (s : St K V) (k : K) (reason : String) : Bool × St K V :=
  match alGet s.data k with
  | some d =>
    match d.functions with
    | some p =>
      (false, { s with heap := settleHeap s.heap p (.errored reason)
                       data := alSet s.data k ⟨none, .rejected⟩ })
    | none =>
      let q := s.heap.length
      (false, { promises := alSet s.promises k q
                data := alSet s.data k ⟨none, .rejected⟩
                heap := s.heap ++ [Outcome.errored reason] })
  | none =>
    let q := s.heap.length
    (true, { promises := alSet s.promises k q
             data := alSet s.data k ⟨none, .rejected⟩
             heap := s.heap ++ [Outcome.errored reason] })

/-- Embedding of `PromiseMap#delete` via `doDelete` (part_015): reject a
still-controllable promise with reason `deleted`, then remove the key from
both maps. Returns whether the key was present in `promises`. -/
def del (s : St K V) (k : K) : Bool × St K V :=
  let heap' :=
    match alGet s.data k with
    | some d =>
      match d.functions with
      | some p => settleHeap s.heap p (.errored "deleted")
      | none => s.heap
    | none => s.heap
  ((alGet s.promises k).isSome,
    { promises := alErase s.promises k
      data := alErase s.data k
      heap := heap' })

end PromiseMapNew


namespace PromiseMapOld

/-!
Shallow embedding of the legacy `PromiseMap`
(src/src/containers/promise_map.ts). Unlike the rewrite, this revision
throws on settling an already-settled entry and routes every lookup
through `getRaw`, which throws when exactly one of the two internal maps
contains the key. The continuation of `doResolve`'s `await value` (which
records the Fulfilled status via `setStatus`) is kept explicit here as a
deferred microtask in `tasks`, run by `tick`; this is what lets the model
distinguish operations issued in the same event-loop turn from operations
separated by a turn boundary.
-/

/-- State of the legacy `PromiseMap`: the `promises` and `data` maps, the
promise heap, and the queue of deferred `setStatus` continuations
scheduled by `doResolve`. -/
structure St (K V : Type) where
  promises : List (K × Nat)
  data : List (K × MapData)
  heap : List (Outcome V)
  tasks : List (K × PState)
deriving DecidableEq, Repr

variable {K V : Type} [DecidableEq K]

/-- Empty map (the constructor). -/
def empty : St K V := ⟨[], [], [], []⟩

/-- Embedding of the private `getRaw`: `ok none` when the key is in
neither map, an error when it is in exactly one (the two `throw` sites of
the source), and the promise/control-block pair when it is in both. -/
def getRaw (s : St K V) (k : K) : Except PMErr (Option (Nat × MapData)) :=
  match alGet s.promises k, alGet s.data k with
  | none, none => .ok none
  | none, some _ => .error .promiseUndefined
  | some _, none => .error .dataUndefined
  | some p, some d => .ok (some (p, d))

/-- Embedding of `setStatus`, the continuation `doResolve` runs after
`await value`: re-reads the control block and stores it back with the new
status. The source's spread of `this.data.get(key)!` evaluates to a bare
`{ status }` object when the entry was deleted in the meantime, re-adding
a data entry with no matching promise. -/
def setStatus (s : St K V) (k : K) (st : PState) : St K V :=
  let d' : MapData :=
    match alGet s.data k with
    | some d => { d with status := st }
    | none => ⟨none, st⟩
  { s with data := alSet s.data k d' }

/-- Run the queued `setStatus` microtasks in FIFO order. -/
def drainGo (s : St K V) : List (K × PState) → St K V
  | [] => s
  | (k, st) :: rest => drainGo (setStatus s k st) rest

/-- Drain the microtask queue: the event loop running the continuations
scheduled by `doResolve` once the synchronous call stack has emptied. -/
def tick (s : St K V) : St K V :=
  drainGo { s with tasks := [] } s.tasks

/-- Embedding of `PromiseMap#get` (legacy): consult `getRaw` (whose errors
propagate), return the stored promise if present, and otherwise install a
fresh pending promise recording its settle functions in the control
block. -/
def get (s : St K V) (k : K) : Except PMErr Nat × St K V :=
  match getRaw s k with
  | .error e => (.error e, s)
  | .ok (some (p, _)) => (.ok p, s)
  | .ok none =>
    let p := s.heap.length
    (.ok p, { s with promises := alSet s.promises k p
                     data := alSet s.data k ⟨some p, .pending⟩
                     heap := s.heap ++ [Outcome.unset] })

/-- Embedding of `PromiseMap#resolve` (legacy) for a plain value. On an
existing entry, `getFunctions` throws unless the entry is Pending and
still holds its settle functions, and the catch rethrows
`cannot resolve: already settled` (before `doResolve` is ever invoked, so
nothing is mutated and no microtask is scheduled). On the happy path the
stored promise is settled with the value, a `setStatus Fulfilled`
microtask is scheduled, and the control block is stored back Pending with
its functions removed (`withStatus`). On an absent key, `resolveNew`
installs a fresh fulfilled promise and schedules the same microtask.
Returns the source's `!hasEntry`. -/
def resolve (s : St K V) (k : K) (v : V) : Except PMErr Bool × St K V :=
  match getRaw s k with
  | .error e => (.error e, s)
  | .ok (some (_, d)) =>
    match d.functions, d.status with
    | some pf, .pending =>
      (.ok false, { s with heap := settleHeap s.heap pf (.value v)
                           tasks := s.tasks ++ [(k, PState.fulfilled)]
                           data := alSet s.data k ⟨none, .pending⟩ })
    | _, _ => (.error .alreadyResolved, s)
  | .ok none =>
    let q := s.heap.length
    (.ok true, { s with promises := alSet s.promises k q
                        data := alSet s.data k ⟨none, .pending⟩
                        heap := s.heap ++ [Outcome.value v]
                        tasks := s.tasks ++ [(k, PState.fulfilled)] })

/-- Embedding of `PromiseMap#reject` (legacy). Symmetric to `resolve`,
except that no `doResolve` is involved: the Rejected status is written
synchronously and no microtask is scheduled. -/
def reject (s : St K V) (k : K) (reason : String) : Except PMErr Bool × St K V :=
  match getRaw s k with
  | .error e => (.error e, s)
  | .ok (some (_, d)) =>
    match d.functions, d.status with
    | some pf, .pending =>
      (.ok false, { s with heap := settleHeap s.heap pf (.errored reason)
                           data := alSet s.data k ⟨none, .rejected⟩ })
    | _, _ => (.error .alreadyRejected, s)
  | .ok none =>
    let q := s.heap.length
    (.ok true, { s with promises := alSet s.promises k q
                        data := alSet s.data k ⟨none, .rejected⟩
                        heap := s.heap ++ [Outcome.errored reason] })

/-- Embedding of `PromiseMap#delete` (legacy): `getRaw` (errors
propagate), reject a still-held settle capability with reason `deleted`,
and remove the key from both maps. Returns whether the key existed. -/
def del (s : St K V) (k : K) : Except PMErr Bool × St K V :=
  match getRaw s k with
  | .error e => (.error e, s)
  | .ok none => (.ok false, s)
  | .ok (some (_, d)) =>
    let heap' :=
      match d.functions with
      | some pf => settleHeap s.heap pf (.errored "deleted")
      | none => s.heap
    (.ok true, { s with promises := alErase s.promises k
                        data := alErase s.data k
                        heap := heap' })

/-- Embedding of `PromiseMap#rejectAll` (legacy): reject every entry that
is Pending and still holds its settle functions, in map order. Returns
the number of rejected entries. -/
def rejectAll (s : St K V) (reason : String) : Nat × St K V :=
  let keys := (s.data.filter
    (fun kd => kd.2.status = PState.pending ∧ kd.2.functions.isSome)).map (·.1)
  (keys.length, keys.foldl (fun st k => (reject st k reason).2) s)

/-- Loop body of `PromiseMap#clear` (legacy): delete the collected keys in
order; a throw from `delete` aborts the loop and propagates, leaving the
earlier deletions in place. -/
def clearGo : St K V → List K → St K V × Option PMErr
  | s, [] => (s, none)
  | s, k :: ks =>
    match del s k with
    | (.error e, s') => (s', some e)
    | (.ok _, s') => clearGo s' ks

/-- Embedding of `PromiseMap#clear` (legacy): snapshot the keys of
`promises` and delete each. -/
def clear (s : St K V) : St K V × Option PMErr :=
  clearGo s (s.promises.map (·.1))

/-- Public operations of the legacy map, plus `tick`, the event loop
draining the scheduled microtasks between synchronous bursts. -/
inductive Op (K V : Type)
  | get (k : K)
  | resolve (k : K) (v : V)
  | reject (k : K) (reason : String)
  | rejectAll (reason : String)
  | del (k : K)
  | clear
  | tick
deriving DecidableEq, Repr

/-- Apply one operation, discarding its return value. A thrown error
propagates to the caller of the operation but leaves the map in the state
the source left it in (all `throw` sites fire before any mutation, except
inside `clear`, whose loop aborts mid-way). -/
def step (s : St K V) : Op K V → St K V
  | .get k => (get s k).2
  | .resolve k v => (resolve s k v).2
  | .reject k r => (reject s k r).2
  | .rejectAll r => (rejectAll s r).2
  | .del k => (del s k).2
  | .clear => (clear s).1
  | .tick => tick s

/-- Run a sequence of operations from the empty map, with microtasks
running only at explicit `tick` steps (operations between two `tick`s
happen in one event-loop turn). -/
def run (ops : List (Op K V)) : St K V :=
  ops.foldl step empty

/-- Apply one operation and then drain the microtask queue: the operation
runs in its own event-loop turn. -/
def stepTick (s : St K V) (op : Op K V) : St K V :=
  tick (step s op)

/-- Run a sequence of operations from the empty map with each operation in
its own event-loop turn. -/
def runTick (ops : List (Op K V)) : St K V :=
  ops.foldl stepTick empty

/-- Key-set agreement between the two internal maps: exactly the
condition under which `getRaw` cannot throw. -/
def keysEq (s : St K V) : Prop :=
  ∀ k, (alGet s.promises k).isSome = (alGet s.data k).isSome

/-- The two internal maps bind each key at most once (an invariant of
`Map` objects that the association-list model has to state). -/
def nodupKeys (s : St K V) : Prop :=
  (s.promises.map (·.1)).Nodup ∧ (s.data.map (·.1)).Nodup

/-- Every queued `setStatus` microtask refers to a key still present in
the data map. -/
def tasksLive (s : St K V) : Prop :=
  ∀ x ∈ s.tasks, (alGet s.data x.1).isSome = true

/-- Well-formedness at an event-loop turn boundary: key sets agree, keys
are unduplicated, and no microtask is pending. -/
def wf (s : St K V) : Prop :=
  keysEq s ∧ nodupKeys s ∧ s.tasks = []

/-- Well-formedness in the middle of a turn, after a public operation has
run but before its microtasks have: key sets agree, keys are
unduplicated, and pending microtasks refer to live keys. -/
def wfMid (s : St K V) : Prop :=
  keysEq s ∧ nodupKeys s ∧ tasksLive s

end PromiseMapOld

namespace ResourcePool

/-!
Shallow embedding of `ResourcePool` (src/src/containers/resource_pool.ts).
Resources are identified by the value of `resourceCount` at their creation
(the source's `create()` callback is opaque; only identity matters).
`inUse` models the JavaScript `Set` (insertion-ordered, add-if-absent).
Handing a released resource to a waiting `getResource` promise and that
promise's continuation `this.inUse.add(resource)` are modelled as one
atomic step. The ghost fields `suspended` and `served` record, in order,
the acquires that suspended and the suspended acquires that have since
been completed by a release; they do not influence the dynamics.
-/

/-- Pool state: the `unused` FIFO, the `inUse` set, the `resourceCount`
counter, the `waiting` FIFO of suspended acquires (identified by a fresh
waiter id), plus ghost bookkeeping for fairness. -/
structure St where
  unused : List Nat
  inUse : List Nat
  resourceCount : Nat
  waiting : List Nat
  nextWaiter : Nat
  suspended : List Nat
  served : List Nat
deriving DecidableEq, Repr

/-- Add to a JavaScript `Set`: append iff absent. -/
def setAdd (l : List Nat) (r : Nat) : List Nat :=
  if r ∈ l then l else l ++ [r]

/-- Freshly constructed pool. -/
def empty : St := ⟨[], [], 0, [], 0, [], []⟩

/-- Errors: `resource does not belong to this pool` from `return`, and a
marker for a `destroyAll` that would suspend (modelled as ill-formed in a
sequential trace). -/
inductive Err
  | notOwned
  | drainBusy
deriving DecidableEq, Repr

/-- Embedding of `get`/`getResource`: take the head of the unused FIFO if
any; otherwise create a resource if fewer than `max` are owned; otherwise
suspend, joining the waiter FIFO. -/
def acquire (max : Nat) (s : St) : St :=
  match s.unused with
  | r :: rest => { s with unused := rest, inUse := setAdd s.inUse r }
  | [] =>
    if s.resourceCount < max then
      { s with resourceCount := s.resourceCount + 1
               inUse := setAdd s.inUse s.resourceCount }
    else
      { s with waiting := s.waiting ++ [s.nextWaiter]
               nextWaiter := s.nextWaiter + 1
               suspended := s.suspended ++ [s.nextWaiter] }

/-- Embedding of `return`: throw unless the resource is checked out;
otherwise remove it from `inUse` and either hand it directly to the head
waiter (who re-inserts it into `inUse` on completing) or push it onto the
unused FIFO. -/
def release (s : St) (r : Nat) : Except Err St :=
  if r ∈ s.inUse then
    let s1 := { s with inUse := s.inUse.erase r }
    match s1.waiting with
    | w :: rest =>
      .ok { s1 with waiting := rest
                    inUse := setAdd s1.inUse r
                    served := s1.served ++ [w] }
    | [] => .ok { s1 with unused := s1.unused ++ [r] }
  else
    .error .notOwned

/-- Embedding of `destroyAll`: destroy every unused resource. The source
empties the unused queue but never decrements `resourceCount`. When
resources are checked out the source suspends on the `empty` signal; a
sequential trace in which that happens is modelled as an error. -/
def drain (s : St) : Except Err St :=
  if s.inUse = [] then .ok { s with unused := [] }
  else .error .drainBusy

/-- Operations that drive the pool. -/
inductive Op
  | acquire
  | release (r : Nat)
  | drain
deriving DecidableEq, Repr

/-- One operation. -/
def step (max : Nat) (s : St) : Op → Except Err St
  | .acquire => .ok (acquire max s)
  | .release r => release s r
  | .drain => drain s

/-- Run a trace from a given state; a thrown error aborts the trace. -/
def runFrom (max : Nat) (s : St) : List Op → Except Err St
  | [] => .ok s
  | op :: rest =>
    match step max s op with
    | .error e => .error e
    | .ok s' => runFrom max s' rest

/-- Run a trace from the empty pool. -/
def run (max : Nat) (ops : List Op) : Except Err St :=
  runFrom max empty ops

/-- Pool well-formedness: the unused FIFO and in-use set partition the
owned resources (counting), ownership never exceeds `max`, resource ids
are pairwise distinct and below the creation counter, and the suspension
ledger splits into the already-served waiters followed by the still
waiting ones. -/
def Inv (max : Nat) (s : St) : Prop :=
  s.unused.length + s.inUse.length = s.resourceCount ∧
  s.resourceCount ≤ max ∧
  (s.unused ++ s.inUse).Nodup ∧
  (∀ r ∈ s.unused ++ s.inUse, r < s.resourceCount) ∧
  s.suspended = s.served ++ s.waiting

end ResourcePool

namespace RoundRobin

/-!
Embedding of `getRoundRobinStrategy` (src/src/result_backend.ts): the
returned strategy closes over a counter starting at 0; each call returns
`brokers[index]` and then advances `index` to `(index + 1) % size`.
Brokers are identified by their position in the broker array.
-/

/-- One call of the strategy: the chosen broker position and the updated
internal counter. -/
def strategyCall (size : Nat) (index : Nat) : Nat × Nat :=
  (index, (index + 1) % size)

/-- Value of the internal counter after `n` calls. -/
def counterAfter (size : Nat) : Nat → Nat
  | 0 => 0
  | n + 1 => ((counterAfter size n) + 1) % size

/-- Broker position returned by the strategy on its `n`-th call, counting
from 0. -/
def nthChoice (size : Nat) (n : Nat) : Nat :=
  (strategyCall size (counterAfter size n)).1

end RoundRobin

namespace Task

/-!
Embedding of the publish path of `Task` (src/src/task.ts).

The `Task` constructor runs `this.broker = failoverStrategy(brokers)`,
consuming one strategy call; `applyAsync`'s `tryPublish` publishes on
`this.broker` and consults the strategy again only from its `catch`
block. `tryPublish` is

    try { return this.broker.publish(publishOptions); }
    catch { this.broker = this.failoverStrategy(this.brokers);
            return tryPublish(); }

inside an `async` arrow function: the promise returned by `publish` is
adopted by the `return` without an `await`, so only a synchronous throw
from the call itself reaches the `catch`; an asynchronous rejection of
the returned promise rejects `tryPublish`'s own (discarded) promise and
triggers neither failover nor retry. The embedding keeps the three
behaviors of a publish apart.
-/

/-- Behavior of one `publish` call on a given broker. -/
inductive PublishBehavior
  | syncThrow
  | asyncReject
  | success (resp : String)
deriving DecidableEq, Repr

/-- Outcome of the (discarded) promise returned by `tryPublish`. -/
inductive PublishOutcome
  | flushed (resp : String)
  | uncaughtRejection (broker : Nat)
  | outOfFuel
deriving DecidableEq, Repr

/-- Embedding of `tryPublish`: a synchronous throw is caught, triggers a
failover and a retry; an asynchronous rejection is adopted and escapes
the `catch`; a successful publish resolves. `fuel` bounds the recursion
(the source recurses unboundedly while synchronous throws continue). -/
def tryPublish (publish : Nat → PublishBehavior) (failover : Nat → Nat) :
    Nat → Nat → PublishOutcome
  | 0, _ => .outOfFuel
  | fuel + 1, broker =>
    match publish broker with
    | .success r => .flushed r
    | .asyncReject => .uncaughtRejection broker
    | .syncThrow => tryPublish publish failover fuel (failover broker)

/-- Embedding of the tail of `applyAsync`: `tryPublish()` is invoked with
its promise discarded, and the `Result` handle (identified here by the
task id it wraps) is returned to the caller unconditionally. -/
def applyAsyncPublish (publish : Nat → PublishBehavior) (failover : Nat → Nat)
    (fuel broker : Nat) (id : String) : String × PublishOutcome :=
  (id, tryPublish publish failover fuel broker)

/-- State of a `Task` under the built-in round-robin strategy: the broker
currently selected and the strategy's internal counter. -/
structure PubState where
  broker : Nat
  index : Nat
deriving DecidableEq, Repr

/-- Embedding of the `Task` constructor's
`this.broker = failoverStrategy(brokers)` for a fresh round-robin
strategy over `size` brokers. -/
def mkTask (size : Nat) : PubState :=
  let (b, i) := RoundRobin.strategyCall size 0
  ⟨b, i⟩

/-- One publish with `f` synchronous failures before the attempt that
succeeds: each failure consults the strategy and retries. Returns the
broker that performed the successful attempt. -/
def publishOnce (size : Nat) : PubState → Nat → Nat × PubState
  | s, 0 => (s.broker, s)
  | s, f + 1 =>
    let (b, i) := RoundRobin.strategyCall size s.index
    publishOnce size ⟨b, i⟩ f

/-- A sequence of publishes, the `i`-th suffering `fails[i]` synchronous
failures before succeeding; returns the broker used by each successful
publish. -/
def publishSeq (size : Nat) : PubState → List Nat → List Nat
  | _, [] => []
  | s, f :: fs =>
    let (b, s') := publishOnce size s f
    b :: publishSeq size s' fs

/-- Brokers used by the successful publishes of a task constructed over
`size` brokers with the built-in round-robin strategy. -/
def brokersUsed (size : Nat) (fails : List Nat) : List Nat :=
  publishSeq size (mkTask size) fails

end Task

/-- Result status values (`enum Status` in src, string enum on the wire). -/
inductive Status
  | failure
  | pending
  | received
  | retry
  | revoked
  | started
  | success
deriving DecidableEq, Repr

/-- Result envelope (`interface ResultMessage`). The `any`-typed `result`
payload is the type parameter; `children` payloads are modelled as
strings. -/
structure ResultMessage (T : Type) where
  children : List String
  result : T
  status : Status
  task_id : String
  traceback : Option String

namespace RedisBackend

/-!
Embedding of the decision logic of `RedisBackend#get`
(src/src/utility.ts, RedisBackend section). Inputs: whether the keyed
future map already has an entry for the task id (`this.results.has`), the
reply of the immediate Redis `GET` (`none` models a null reply for a
missing key), and the JSON parser for stored payloads. The `timeout`
race is orthogonal to the claim and not modelled.
-/

/-- How a call to `get` obtains its value: from the envelope already
stored in Redis, or by awaiting the keyed future map's entry. -/
inductive GetPath (T : Type)
  | immediate (m : ResultMessage T)
  | awaitEntry

/-- Embedding of `RedisBackend#get`: if the map has the entry, await it
(no `GET` issued); otherwise issue a `GET` and return the parsed envelope
iff the reply is non-null and its status is SUCCESS, falling through to
the map otherwise. The first component records whether a `GET` was
issued. -/
def get {T : Type} (hasEntry : Bool) (reply : Option String)
    (parse : String → ResultMessage T) : Bool × GetPath T :=
  if hasEntry then
    (false, .awaitEntry)
  else
    match reply with
    | none => (true, .awaitEntry)
    | some raw =>
      if (parse raw).status = Status.success then (true, .immediate (parse raw))
      else (true, .awaitEntry)

end RedisBackend

/-- String value of `CompressionMime.Zlib` (`enum CompressionMime`): the
only compression MIME the library emits. -/
def CompressionMime.Zlib : String := "application/x-gzip"

/-- String values of `enum ContentEncodingMime`. -/
def ContentEncodingMime.Utf8 : String := "utf-8"

def ContentEncodingMime.Base64 : String := "base64"

/-- String values of `enum ContentTypeMime`. -/
def ContentTypeMime.Json : String := "application/json"

def ContentTypeMime.Yaml : String := "application/x-yaml"

/-- Compression methods (`enum CompressorType` of the packer). -/
inductive Compressor
  | gzip
  | identity
  | zlib
deriving DecidableEq, Repr

/-- Body encodings (`enum EncoderType` of the packer). -/
inductive Encoder
  | base64
  | plaintext
deriving DecidableEq, Repr

/-- Serializers (`enum SerializerType` of the packer). -/
inductive Serializer
  | json
  | yaml
deriving DecidableEq, Repr

/-- Queue persistence of a task (`"persistent" | "transient"`). -/
inductive DeliveryMode
  | persistent
  | transient
deriving DecidableEq, Repr

/-- Task message headers (`interface TaskHeaders`). Optional fields are
`Option`s; `none` models an absent field for `compression` and a `null`
value for the nullable fields. -/
structure TaskHeaders where
  argsrepr : String
  compression : Option String
  eta : Option String
  expires : Option String
  group : Option String
  id : String
  kwargsrepr : String
  lang : String
  origin : String
  parent_id : Option String
  retries : Nat
  root_id : String
  shadow : Option String
  task : String
  timelimit : Option Int × Option Int
deriving DecidableEq, Repr

/-- Routing details (`interface TaskDeliveryInfo`). -/
structure TaskDeliveryInfo where
  exchange : String
  routing_key : String
deriving DecidableEq, Repr

/-- Task message properties (`interface TaskProperties`). -/
structure TaskProperties where
  body_encoding : String
  correlation_id : String
  delivery_info : TaskDeliveryInfo
  delivery_mode : Nat
  delivery_tag : String
  priority : Nat
  queue : String
  reply_to : String
deriving DecidableEq, Repr

/-- Task message envelope (`interface TaskMessage`); `contentEncoding`
and `contentType` model the `"content-encoding"` and `"content-type"`
fields. -/
structure TaskMessage where
  body : String
  contentEncoding : String
  contentType : String
  headers : TaskHeaders
  properties : TaskProperties
deriving DecidableEq, Repr

namespace Task

/-!
Embedding of the envelope construction of `Task#applyAsync`
(src/src/task.ts). The UUID drawn by `Uuid.v4()` and the
`pid@hostname` origin are parameters; the packer collaborator (out of
scope per the specification) is an opaque function producing the body
from the serializer and the effective compressor and encoder.
-/

/-- Construction-time state of a `Task` used by the envelope builder. -/
structure Cfg where
  appId : String
  name : String
  deliveryMode : DeliveryMode
  timeLimit : Option Int × Option Int
deriving DecidableEq, Repr

/-- Embedding of `getDeliveryMode`: 1 if transient, 2 otherwise. -/
def getDeliveryMode : DeliveryMode → Nat
  | .transient => 1
  | .persistent => 2

/-- Embedding of `selectEncoder`: plaintext for identity compression,
Base64 otherwise. -/
def selectEncoder : Compressor → Encoder
  | .identity => .plaintext
  | _ => .base64

/-- Embedding of `getEncodingMime`. -/
def getEncodingMime : Encoder → String
  | .base64 => ContentEncodingMime.Base64
  | .plaintext => ContentEncodingMime.Utf8

/-- Embedding of `getContentTypeMime`. -/
def getContentTypeMime : Serializer → String
  | .json => ContentTypeMime.Json
  | .yaml => ContentTypeMime.Yaml

/-- The compressor actually used by `createPacker`: requesting gzip uses
zlib (Celery quirk, see the source comment). -/
def realCompressor : Compressor → Compressor
  | .gzip => .zlib
  | c => c

/-- Embedding of `createPacker`: the packer is represented by the
compressor it applies; the chosen encoder is returned alongside. -/
def createPacker (compressor : Compressor) : Compressor × Encoder :=
  (realCompressor compressor, selectEncoder compressor)

/-- Embedding of `createHeaders`: the base headers, with the
`compression` field added iff compression is not identity, always with
the zlib MIME label. -/
def createHeaders (cfg : Cfg) (argsrepr kwargsrepr : String)
    (compression : Compressor) (eta expires : Option String)
    (id : String) (origin : String) : TaskHeaders :=
  let base : TaskHeaders :=
    { argsrepr := argsrepr
      compression := none
      eta := eta
      expires := expires
      group := none
      id := id
      kwargsrepr := kwargsrepr
      lang := "py"
      origin := origin
      parent_id := none
      retries := 0
      root_id := id
      shadow := none
      task := cfg.name
      timelimit := cfg.timeLimit }
  if compression = Compressor.identity then base
  else { base with compression := some CompressionMime.Zlib }

/-- Embedding of `createProperties`. -/
def createProperties (cfg : Cfg) (deliveryMode : Nat) (encoding : Encoder)
    (id : String) (priority : Nat) (queue : String) : TaskProperties :=
  { body_encoding := getEncodingMime encoding
    correlation_id := id
    delivery_info := ⟨"", queue⟩
    delivery_mode := deliveryMode
    delivery_tag := "celery"
    priority := priority
    queue := queue
    reply_to := cfg.appId }

/-- Embedding of the envelope construction of `applyAsync`: returns the
result key handed to the `Result` handle (the fresh task id) together
with the envelope passed to `publish`. -/
def applyAsync (cfg : Cfg) (id origin argsrepr kwargsrepr : String)
    (compression : Compressor) (serializer : Serializer) (priority : Nat)
    (queue : String) (eta expires : Option String)
    (pack : Serializer → Compressor → Encoder → String) :
    String × TaskMessage :=
  let pe := createPacker compression
  let body := pack serializer pe.1 pe.2
  (id,
    { body := body
      contentEncoding := ContentEncodingMime.Utf8
      contentType := getContentTypeMime serializer
      headers := createHeaders cfg argsrepr kwargsrepr compression
        eta expires id origin
      properties := createProperties cfg (getDeliveryMode cfg.deliveryMode)
        pe.2 id priority queue })

end Task

/-- Options of an AMQP queue declaration (`AmqpLib.Options.AssertQueue`
as used in this repository). -/
structure AssertQueueOptions where
  autoDelete : Bool
  durable : Bool
  expires : Nat
deriving DecidableEq, Repr

/-- A declaration performed on an AMQP channel: a queue assertion with
its options argument (`none` when the source passes no options object,
leaving amqplib defaults), or an exchange assertion with its type. -/
inductive AmqpDecl
  | queue (name : String) (options : Option AssertQueueOptions)
  | exchange (name : String) (exchangeType : String)
deriving DecidableEq, Repr

/-- Embedding of `AmqpBroker.assert` (src/src/amqp/broker.ts, identical
in src/unnamed/part_009): always `assertQueue(routingKey)` with no
options object; additionally `assertExchange(exchange, "direct")` unless
the exchange is the default empty-named exchange. The list records the
declarations issued, in issue order. -/
def AmqpBroker.assert (exchange routingKey : String) : List AmqpDecl :=
  let queueDecl := AmqpDecl.queue routingKey none
  if exchange = "" then [queueDecl]
  else [queueDecl, AmqpDecl.exchange exchange "direct"]

/-- Embedding of `RpcBackend#assertQueue` (src/src/amqp/backend.ts),
where the repository does pass explicit queue options; included for
contrast with `AmqpBroker.assert`. -/
def RpcBackend.assertQueue (routingKey : String) : AmqpDecl :=
  AmqpDecl.queue routingKey (some ⟨false, false, 86400000⟩)

/-! ## Lemmas and theorems -/

theorem alGet_alSet_self {K A : Type} [DecidableEq K]
    (l : List (K × A)) (k : K) (a : A) : alGet (alSet l k a) k = some a := by
  induction l with
  | nil => simp [alSet, alGet]
  | cons h t ih =>
    obtain ⟨k', a'⟩ := h
    by_cases hk : k' = k <;> simp [alSet, alGet, hk, ih]

theorem alGet_alSet_ne {K A : Type} [DecidableEq K]
    (l : List (K × A)) (k k' : K) (a : A) (h : k ≠ k') :
    alGet (alSet l k a) k' = alGet l k' := by
  induction l with
  | nil => simp [alSet, alGet, h]
  | cons hd t ih =>
    obtain ⟨k₀, a₀⟩ := hd
    by_cases hk : k₀ = k
    · subst hk
      simp [alSet, alGet, h]
    · simp [alSet, alGet, hk, ih]

theorem alSet_keys_subset {K A : Type} [DecidableEq K]
    (l : List (K × A)) (k : K) (a : A) :
    ∀ x ∈ (alSet l k a).map (·.1), x = k ∨ x ∈ l.map (·.1) := by
  induction l with
  | nil => simp [alSet]
  | cons h t ih =>
    obtain ⟨k', a'⟩ := h
    by_cases hk : k' = k
    · subst hk
      intro x hx
      have he : (alSet ((k', a') :: t) k' a) = (k', a) :: t := by
        simp [alSet]
      rw [he] at hx
      simp only [List.map_cons, List.mem_cons] at hx ⊢
      tauto
    · intro x hx
      simp [alSet, hk] at hx
      rcases hx with hx | hx
      · simp [hx]
      · rcases ih x (by simpa using hx) with h1 | h1
        · exact Or.inl h1
        · exact Or.inr (by simp [h1])

theorem alSet_keys_nodup {K A : Type} [DecidableEq K]
    (l : List (K × A)) (k : K) (a : A) (h : (l.map (·.1)).Nodup) :
    ((alSet l k a).map (·.1)).Nodup := by
  induction l with
  | nil => simp [alSet]
  | cons hd t ih =>
    obtain ⟨k', a'⟩ := hd
    by_cases hk : k' = k
    · subst hk
      simpa [alSet] using h
    · simp only [alSet, hk, if_false, List.map_cons, List.nodup_cons] at h ⊢
      refine ⟨fun hx => ?_, ih h.2⟩
      rcases alSet_keys_subset t k a k' hx with h1 | h1
      · exact hk h1
      · exact h.1 h1

theorem alErase_sublist {K A : Type} [DecidableEq K]
    (l : List (K × A)) (k : K) : (alErase l k).Sublist l := by
  induction l with
  | nil => simp [alErase]
  | cons hd t ih =>
    obtain ⟨k', a'⟩ := hd
    by_cases hk : k' = k
    · simp only [alErase, hk, if_pos rfl]
      exact List.sublist_cons_self _ _
    · simp only [alErase, hk, if_false]
      exact List.Sublist.cons₂ _ ih

theorem alErase_keys_nodup {K A : Type} [DecidableEq K]
    (l : List (K × A)) (k : K) (h : (l.map (·.1)).Nodup) :
    ((alErase l k).map (·.1)).Nodup :=
  ((alErase_sublist l k).map (·.1)).nodup h

theorem alGet_alErase_self {K A : Type} [DecidableEq K]
    (l : List (K × A)) (k : K) (h : (l.map (·.1)).Nodup) :
    alGet (alErase l k) k = none := by
  induction l with
  | nil => simp [alErase, alGet]
  | cons hd t ih =>
    obtain ⟨k', a'⟩ := hd
    simp only [List.map_cons, List.nodup_cons] at h
    by_cases hk : k' = k
    · subst hk
      simp only [alErase, if_pos rfl]
      cases ht : alGet t k' with
      | none => exact ht
      | some a =>
        exfalso
        apply h.1
        clear ih h
        induction t with
        | nil => simp [alGet] at ht
        | cons hd2 t2 ih2 =>
          obtain ⟨k2, a2⟩ := hd2
          by_cases hk2 : k2 = k'
          · simp [hk2]
          · simp only [alGet, hk2, if_false] at ht
            simp [ih2 ht]
    · simp [alErase, hk, alGet, ih h.2]

theorem alGet_alErase_ne {K A : Type} [DecidableEq K]
    (l : List (K × A)) (k k' : K) (h : k ≠ k') :
    alGet (alErase l k) k' = alGet l k' := by
  induction l with
  | nil => simp [alErase]
  | cons hd t ih =>
    obtain ⟨k0, a0⟩ := hd
    by_cases hk : k0 = k
    · subst hk
      have hne : ¬ k0 = k' := fun hh => h hh
      simp [alErase, alGet, hne]
    · simp [alErase, hk, alGet, ih]

theorem RoundRobin.counterAfter_eq (size : Nat) (n : Nat) :
    RoundRobin.counterAfter size n = n % size := by
  induction n with
  | zero => simp [RoundRobin.counterAfter]
  | succ n ih =>
    simp only [RoundRobin.counterAfter, ih]
    exact Nat.mod_add_mod n size 1

theorem Task.publishSeq_noFail (size : Nat) (s : Task.PubState) (k : Nat) :
    Task.publishSeq size s (List.replicate k 0) = List.replicate k s.broker := by
  induction k generalizing s with
  | zero => simp [Task.publishSeq]
  | succ k ih =>
    simp [List.replicate, Task.publishSeq, Task.publishOnce, ih]

/-- C3 (code bug): when the selected broker's `publish` fails by returning
a rejected promise (the normal failure mode of asynchronous broker I/O),
the `catch` of `tryPublish` is never entered: no failover is consulted and
the publish is not retried, even though the next broker would have
accepted it; the rejection stays on the discarded `tryPublish()` promise
while the caller of `applyAsync` still receives the `Result` handle. -/
theorem tryPublish_async_rejection_uncaught :
    Task.applyAsyncPublish
      (fun i => if i = 0 then Task.PublishBehavior.asyncReject
                else Task.PublishBehavior.success "flushed to write buffer")
      (fun _ => 1) 5 0 "task-id"
      = ("task-id", Task.PublishOutcome.uncaughtRejection 0)
    ∧ Task.tryPublish
        (fun i => if i = 0 then Task.PublishBehavior.asyncReject
                  else Task.PublishBehavior.success "flushed to write buffer")
        (fun _ => 1) 5 1
      = Task.PublishOutcome.flushed "flushed to write buffer" := by
  constructor
  · rfl
  · rfl

/-- C4: when the keyed future map has no entry for the task id,
`RedisBackend#get` issues the immediate Redis `GET`, and it returns the
stored envelope right away if and only if the reply is non-null and the
parsed envelope's status is SUCCESS; in every other case it falls through
and awaits the keyed future map's entry. -/
theorem redisBackend_get_immediate_iff {T : Type} (hasEntry : Bool)
    (reply : Option String) (parse : String → ResultMessage T)
    (m : ResultMessage T) (h : hasEntry = false) :
    (RedisBackend.get hasEntry reply parse).1 = true ∧
    ((RedisBackend.get hasEntry reply parse).2 = RedisBackend.GetPath.immediate m ↔
      ∃ raw, reply = some raw ∧ parse raw = m ∧ m.status = Status.success) := by
  subst h
  refine ⟨?_, ?_⟩
  · cases reply with
    | none => rfl
    | some raw =>
      by_cases hs : (parse raw).status = Status.success <;>
        simp [RedisBackend.get, hs]
  · cases reply with
    | none => simp [RedisBackend.get]
    | some raw =>
      by_cases hs : (parse raw).status = Status.success
      · simp only [RedisBackend.get, Bool.false_eq_true, if_false,
          if_pos hs, RedisBackend.GetPath.immediate.injEq, Option.some.injEq]
        constructor
        · intro hpm
          exact ⟨raw, rfl, hpm, hpm ▸ hs⟩
        · rintro ⟨raw', hrr, hpm, _⟩
          cases hrr
          exact hpm
      · simp only [RedisBackend.get, Bool.false_eq_true, if_false, if_neg hs]
        constructor
        · intro he
          exact absurd he (by simp)
        · rintro ⟨raw', hrr, hpm, hm⟩
          cases hrr
          exact absurd (hpm ▸ hm) hs

/-- C4 witness: with no map entry, a non-null reply parsing to a SUCCESS
envelope is returned immediately. -/
theorem redisBackend_get_immediate_iff_witness :
    (RedisBackend.get false (some "x")
      (fun _ => (⟨[], (0 : Nat), Status.success, "tid", none⟩ : ResultMessage Nat))).1 = true ∧
    ((RedisBackend.get false (some "x")
      (fun _ => (⟨[], (0 : Nat), Status.success, "tid", none⟩ : ResultMessage Nat))).2 =
        RedisBackend.GetPath.immediate ⟨[], 0, Status.success, "tid", none⟩ ↔
      ∃ raw, (some "x" : Option String) = some raw ∧
        (⟨[], (0 : Nat), Status.success, "tid", none⟩ : ResultMessage Nat) =
          (⟨[], 0, Status.success, "tid", none⟩ : ResultMessage Nat) ∧
        (⟨[], (0 : Nat), Status.success, "tid", none⟩ : ResultMessage Nat).status = Status.success) :=
  redisBackend_get_immediate_iff false (some "x")
    (fun _ => (⟨[], (0 : Nat), Status.success, "tid", none⟩ : ResultMessage Nat))
    ⟨[], 0, Status.success, "tid", none⟩ rfl

/-- C5: every envelope built by `Task.applyAsync` satisfies the section-3
invariants: `headers.id`, `properties.correlation_id` and the result key
all equal the task id, `headers.root_id` equals `headers.id`,
`headers.parent_id` is null, the `headers.compression` field is present
iff the requested compression is not identity and then always carries the
MIME token `application/x-gzip` (also when zlib was requested), and
`properties.body_encoding` is `base64` exactly for non-identity
compression and `utf-8` otherwise. -/
theorem task_envelope_invariants (cfg : Task.Cfg)
    (id origin argsrepr kwargsrepr : String) (compression : Compressor)
    (serializer : Serializer) (priority : Nat) (queue : String)
    (eta expires : Option String)
    (pack : Serializer → Compressor → Encoder → String) :
    (Task.applyAsync cfg id origin argsrepr kwargsrepr compression serializer
        priority queue eta expires pack).2.headers.id = id ∧
    (Task.applyAsync cfg id origin argsrepr kwargsrepr compression serializer
        priority queue eta expires pack).2.properties.correlation_id = id ∧
    (Task.applyAsync cfg id origin argsrepr kwargsrepr compression serializer
        priority queue eta expires pack).1 = id ∧
    (Task.applyAsync cfg id origin argsrepr kwargsrepr compression serializer
        priority queue eta expires pack).2.headers.root_id = id ∧
    (Task.applyAsync cfg id origin argsrepr kwargsrepr compression serializer
        priority queue eta expires pack).2.headers.parent_id = none ∧
    ((Task.applyAsync cfg id origin argsrepr kwargsrepr compression serializer
        priority queue eta expires pack).2.headers.compression ≠ none ↔
      compression ≠ Compressor.identity) ∧
    (∀ c, (Task.applyAsync cfg id origin argsrepr kwargsrepr compression
        serializer priority queue eta expires
        pack).2.headers.compression = some c → c = "application/x-gzip") ∧
    (Task.applyAsync cfg id origin argsrepr kwargsrepr compression serializer
        priority queue eta expires pack).2.properties.body_encoding =
      (if compression = Compressor.identity then "utf-8" else "base64") := by
  cases compression <;>
    simp [Task.applyAsync, Task.createHeaders, Task.createProperties,
      Task.createPacker, Task.selectEncoder, Task.getEncodingMime,
      Task.realCompressor, CompressionMime.Zlib, ContentEncodingMime.Utf8,
      ContentEncodingMime.Base64]

/-- C8 counterexample: a task over two brokers whose first two publishes
both succeed uses broker 0 for both; the claim requires publish number 1
(counting from 0) to use broker 1 mod 2 = 1. -/
theorem roundRobin_publish_counterexample :
    Task.brokersUsed 2 [0, 0] = [0, 0] ∧ (0 : Nat) ≠ 1 % 2 := by
  exact ⟨rfl, by decide⟩

/-- C8 amended: the built-in round-robin strategy returns broker `n % N`
on its `n`-th invocation; a `Task` invokes the strategy once in its
constructor (selecting broker 0) and afterwards only from `tryPublish`'s
failure handler, so in a failure-free sequence every publish uses broker
0 instead of cycling. -/
theorem roundRobin_strategy_and_publishes (size : Nat) (h : 0 < size) :
    (∀ n, RoundRobin.nthChoice size n = n % size) ∧
    (∀ k, Task.brokersUsed size (List.replicate k 0) = List.replicate k 0) := by
  constructor
  · intro n
    simp [RoundRobin.nthChoice, RoundRobin.strategyCall,
      RoundRobin.counterAfter_eq]
  · intro k
    simp [Task.brokersUsed, Task.publishSeq_noFail, Task.mkTask,
      RoundRobin.strategyCall]

/-- C8 amended witness: two brokers. -/
theorem roundRobin_strategy_and_publishes_witness :
    (∀ n, RoundRobin.nthChoice 2 n = n % 2) ∧
    (∀ k, Task.brokersUsed 2 (List.replicate k 0) = List.replicate k 0) :=
  roundRobin_strategy_and_publishes 2 (by decide)

/-- C9 counterexample: publishing to the default exchange with routing
key `celery` declares the queue with no options object at all, not with
`autoDelete: false, durable: false, expires: 86400000` (those options are
passed only by the RPC backend's own queue assertion). -/
theorem amqp_assert_counterexample :
    AmqpBroker.assert "" "celery" = [AmqpDecl.queue "celery" none] ∧
    (none : Option AssertQueueOptions) ≠
      some ⟨false, false, 86400000⟩ ∧
    RpcBackend.assertQueue "reply-key" =
      AmqpDecl.queue "reply-key" (some ⟨false, false, 86400000⟩) := by
  refine ⟨by simp [AmqpBroker.assert], by simp, rfl⟩

/-- C9 amended: `AmqpBroker.assert` first declares the routing key as a
queue with no options (amqplib defaults), and additionally declares the
exchange as a direct exchange if and only if the exchange is non-empty. -/
theorem amqp_assert_queue_and_exchange (exchange routingKey : String) :
    (AmqpBroker.assert exchange routingKey).head? =
      some (AmqpDecl.queue routingKey none) ∧
    (AmqpDecl.exchange exchange "direct" ∈ AmqpBroker.assert exchange routingKey
      ↔ exchange ≠ "") := by
  by_cases h : exchange = "" <;> simp [AmqpBroker.assert, h]

theorem List.set_concat_length {A : Type} (l : List A) (a b : A) :
    (l ++ [a]).set l.length b = l ++ [b] := by
  induction l with
  | nil => rfl
  | cons h t ih => simp [List.set, ih]

theorem settleHeap_concat_unset {V : Type} (heap : List (Outcome V))
    (o : Outcome V) :
    settleHeap (heap ++ [Outcome.unset]) heap.length o = heap ++ [o] := by
  unfold settleHeap
  rw [List.getElem?_concat_length]
  exact List.set_concat_length heap _ o

namespace PromiseMapNew

variable {K V : Type} [DecidableEq K]

theorem get_absent (s : St K V) (k : K) (h : alGet s.promises k = none) :
    get s k = (s.heap.length,
      { promises := alSet s.promises k s.heap.length
        data := alSet s.data k ⟨some s.heap.length, .pending⟩
        heap := s.heap ++ [Outcome.unset] }) := by
  unfold get
  rw [h]

theorem get_present (s : St K V) (k : K) (p : Nat)
    (h : alGet s.promises k = some p) : get s k = (p, s) := by
  unfold get
  rw [h]

theorem resolve_absent (s : St K V) (k : K) (v : V)
    (h : alGet s.data k = none) :
    resolve s k v = (true,
      { promises := alSet s.promises k s.heap.length
        data := alSet s.data k ⟨none, .fulfilled⟩
        heap := s.heap ++ [Outcome.value v] }) := by
  unfold resolve
  rw [h]

theorem resolve_existing_fns (s : St K V) (k : K) (v : V) (p : Nat)
    (st' : PState) (h : alGet s.data k = some ⟨some p, st'⟩) :
    resolve s k v = (false,
      { s with heap := settleHeap s.heap p (.value v)
               data := alSet (alSet s.data k ⟨none, .pending⟩) k
                 ⟨none, .fulfilled⟩ }) := by
  unfold resolve
  rw [h]

theorem resolve_existing_none (s : St K V) (k : K) (v : V) (st' : PState)
    (h : alGet s.data k = some ⟨none, st'⟩) :
    resolve s k v = (false,
      { promises := alSet s.promises k s.heap.length
        data := alSet (alSet s.data k ⟨none, .pending⟩) k ⟨none, .fulfilled⟩
        heap := s.heap ++ [Outcome.value v] }) := by
  unfold resolve
  rw [h]

end PromiseMapNew

/-- C1: on a key whose entry in the rewritten `PromiseMap` (part_015) is
already settled (Fulfilled or Rejected, hence with its settle functions
removed), a further `resolve` does not throw (the embedded `resolve` is
total, mirroring the absence of any throw site in the rewrite), returns
`false`, and overwrites the entry by storing a fresh promise following
the new value, so that a subsequent `get` returns that fresh promise,
whose eventual outcome is the new value. -/
theorem promiseMap_resolve_settled_overwrites {K V : Type} [DecidableEq K]
    (s : PromiseMapNew.St K V) (k : K) (v : V) (d : MapData)
    (hd : alGet s.data k = some d) (hst : d.status ≠ PState.pending)
    (hfn : d.functions = none) :
    (PromiseMapNew.resolve s k v).1 = false ∧
    alGet (PromiseMapNew.resolve s k v).2.promises k = some s.heap.length ∧
    (PromiseMapNew.get (PromiseMapNew.resolve s k v).2 k).1 = s.heap.length ∧
    ((PromiseMapNew.get (PromiseMapNew.resolve s k v).2 k).2.heap)[s.heap.length]?
      = some (Outcome.value v) := by
  obtain ⟨fns, st⟩ := d
  cases hfn
  rw [PromiseMapNew.resolve_existing_none s k v st hd]
  have hp : alGet (alSet s.promises k s.heap.length) k = some s.heap.length :=
    alGet_alSet_self _ _ _
  refine ⟨rfl, hp, ?_, ?_⟩
  · rw [PromiseMapNew.get_present _ k s.heap.length hp]
  · rw [PromiseMapNew.get_present _ k s.heap.length hp]
    exact List.getElem?_concat_length _ _

/-- C1 witness: a map holding a fulfilled entry for key 0 (as left by a
completed `resolve 0 5`). -/
theorem promiseMap_resolve_settled_overwrites_witness :
    (PromiseMapNew.resolve
      (⟨[(0, 0)], [(0, ⟨none, PState.fulfilled⟩)], [Outcome.value 5]⟩ :
        PromiseMapNew.St Nat Nat) 0 7).1 = false ∧
    alGet (PromiseMapNew.resolve
      (⟨[(0, 0)], [(0, ⟨none, PState.fulfilled⟩)], [Outcome.value 5]⟩ :
        PromiseMapNew.St Nat Nat) 0 7).2.promises 0 = some 1 ∧
    (PromiseMapNew.get (PromiseMapNew.resolve
      (⟨[(0, 0)], [(0, ⟨none, PState.fulfilled⟩)], [Outcome.value 5]⟩ :
        PromiseMapNew.St Nat Nat) 0 7).2 0).1 = 1 ∧
    ((PromiseMapNew.get (PromiseMapNew.resolve
      (⟨[(0, 0)], [(0, ⟨none, PState.fulfilled⟩)], [Outcome.value 5]⟩ :
        PromiseMapNew.St Nat Nat) 0 7).2 0).2.heap)[1]?
      = some (Outcome.value 7) :=
  promiseMap_resolve_settled_overwrites
    (⟨[(0, 0)], [(0, ⟨none, PState.fulfilled⟩)], [Outcome.value 5]⟩ :
      PromiseMapNew.St Nat Nat) 0 7 ⟨none, PState.fulfilled⟩
    (by decide) (by decide) rfl

/-- C2 counterexample: after `get(0); resolve(0, 0); resolve(0, 1)` on the
rewritten `PromiseMap`, the future returned by the `get` (heap slot 0)
has eventual value 0, the value of the first resolve, not the value 1 of
the last resolve: a promise settles once, and the second resolve only
swaps the stored promise without touching the one already handed out. -/
theorem promiseMap_last_resolve_counterexample :
    ((PromiseMapNew.resolve
        ((PromiseMapNew.resolve
          ((PromiseMapNew.get (⟨[], [], []⟩ : PromiseMapNew.St Nat Nat) 0).2)
          0 0).2)
        0 1).2.heap)[(PromiseMapNew.get (⟨[], [], []⟩ : PromiseMapNew.St Nat Nat) 0).1]?
      = some (Outcome.value 0) ∧
    Outcome.value (0 : Nat) ≠ Outcome.value 1 := by
  exact ⟨rfl, by decide⟩

/-- C2 amended: for a key not yet present in the rewritten `PromiseMap`,
the future returned by `get` eventually yields v for either order of a
single `resolve(k, v)` and `get(k)`; when `resolve` is invoked several
times, a `get` issued after the last resolve returns a future whose
eventual value is the last resolved value, while a future obtained before
an overwriting resolve keeps the value it first settled to. -/
theorem promiseMap_out_of_order_settle {K V : Type} [DecidableEq K]
    (s : PromiseMapNew.St K V) (k : K) (v v₂ : V)
    (hp : alGet s.promises k = none) (hd : alGet s.data k = none) :
    ((PromiseMapNew.resolve (PromiseMapNew.get s k).2 k v).2.heap)[(PromiseMapNew.get s k).1]?
      = some (Outcome.value v) ∧
    ((PromiseMapNew.get (PromiseMapNew.resolve s k v).2 k).2.heap)[(PromiseMapNew.get (PromiseMapNew.resolve s k v).2 k).1]?
      = some (Outcome.value v) ∧
    ((PromiseMapNew.resolve (PromiseMapNew.resolve s k v).2 k v₂).2.heap)[(PromiseMapNew.get ((PromiseMapNew.resolve (PromiseMapNew.resolve s k v).2 k v₂).2) k).1]?
      = some (Outcome.value v₂) := by
  have hga := PromiseMapNew.get_absent s k hp
  have hra := PromiseMapNew.resolve_absent s k v hd
  refine ⟨?_, ?_, ?_⟩
  · rw [hga]
    rw [PromiseMapNew.resolve_existing_fns _ k v s.heap.length PState.pending
      (alGet_alSet_self _ _ _)]
    simp only
    rw [settleHeap_concat_unset]
    exact List.getElem?_concat_length _ _
  · rw [hra]
    rw [PromiseMapNew.get_present _ k s.heap.length (alGet_alSet_self _ _ _)]
    exact List.getElem?_concat_length _ _
  · rw [hra]
    rw [PromiseMapNew.resolve_existing_none _ k v₂ PState.fulfilled
      (alGet_alSet_self _ _ _)]
    rw [PromiseMapNew.get_present _ k _ (alGet_alSet_self _ _ _)]
    exact List.getElem?_concat_length _ _

/-- C2 amended witness: key 0 on the empty map, values 5 then 9. -/
theorem promiseMap_out_of_order_settle_witness :
    ((PromiseMapNew.resolve (PromiseMapNew.get (⟨[], [], []⟩ : PromiseMapNew.St Nat Nat) 0).2 0 5).2.heap)[(PromiseMapNew.get (⟨[], [], []⟩ : PromiseMapNew.St Nat Nat) 0).1]?
      = some (Outcome.value 5) ∧
    ((PromiseMapNew.get (PromiseMapNew.resolve (⟨[], [], []⟩ : PromiseMapNew.St Nat Nat) 0 5).2 0).2.heap)[(PromiseMapNew.get (PromiseMapNew.resolve (⟨[], [], []⟩ : PromiseMapNew.St Nat Nat) 0 5).2 0).1]?
      = some (Outcome.value 5) ∧
    ((PromiseMapNew.resolve (PromiseMapNew.resolve (⟨[], [], []⟩ : PromiseMapNew.St Nat Nat) 0 5).2 0 9).2.heap)[(PromiseMapNew.get ((PromiseMapNew.resolve (PromiseMapNew.resolve (⟨[], [], []⟩ : PromiseMapNew.St Nat Nat) 0 5).2 0 9).2) 0).1]?
      = some (Outcome.value 9) :=
  promiseMap_out_of_order_settle
    (⟨[], [], []⟩ : PromiseMapNew.St Nat Nat) 0 5 9 rfl rfl

namespace ResourcePool

theorem setAdd_of_not_mem (l : List Nat) (r : Nat) (h : r ∉ l) :
    setAdd l r = l ++ [r] := by
  simp [setAdd, h]

theorem acquire_eq_take (max : Nat) (s : St) (r : Nat) (rest : List Nat)
    (hu : s.unused = r :: rest) :
    acquire max s = { s with unused := rest, inUse := setAdd s.inUse r } := by
  unfold acquire
  rw [hu]

theorem acquire_eq_create (max : Nat) (s : St) (hu : s.unused = [])
    (hc : s.resourceCount < max) :
    acquire max s = { s with resourceCount := s.resourceCount + 1
                             inUse := setAdd s.inUse s.resourceCount } := by
  unfold acquire
  rw [hu, if_pos hc]

theorem acquire_eq_suspend (max : Nat) (s : St) (hu : s.unused = [])
    (hc : ¬ s.resourceCount < max) :
    acquire max s = { s with waiting := s.waiting ++ [s.nextWaiter]
                             nextWaiter := s.nextWaiter + 1
                             suspended := s.suspended ++ [s.nextWaiter] } := by
  unfold acquire
  rw [hu, if_neg hc]

theorem release_eq_serve (s : St) (r w : Nat) (rest : List Nat)
    (hm : r ∈ s.inUse) (hw : s.waiting = w :: rest) :
    release s r = .ok { s with inUse := setAdd (s.inUse.erase r) r
                               waiting := rest
                               served := s.served ++ [w] } := by
  unfold release
  rw [if_pos hm]
  simp only [hw]

theorem release_eq_requeue (s : St) (r : Nat)
    (hm : r ∈ s.inUse) (hw : s.waiting = []) :
    release s r = .ok { s with inUse := s.inUse.erase r
                               unused := s.unused ++ [r] } := by
  unfold release
  rw [if_pos hm]
  simp only [hw]

theorem acquire_inv (max : Nat) (s : St) (h : Inv max s) :
    Inv max (acquire max s) := by
  obtain ⟨h1, h2, h3, h4, h5⟩ := h
  cases hu : s.unused with
  | cons r rest =>
    rw [hu] at h1 h3 h4
    have hnd : (r :: (rest ++ s.inUse)).Nodup := by simpa using h3
    have hrni : r ∉ s.inUse := fun hm =>
      (List.nodup_cons.mp hnd).1 (List.mem_append.mpr (Or.inr hm))
    have hsa : setAdd s.inUse r = s.inUse ++ [r] := setAdd_of_not_mem _ _ hrni
    rw [acquire_eq_take max s r rest hu]
    refine ⟨?_, h2, ?_, ?_, h5⟩
    · show rest.length + (setAdd s.inUse r).length = s.resourceCount
      rw [hsa]
      simp only [List.length_append, List.length_cons, List.length_singleton,
        List.length_nil] at h1 ⊢
      omega
    · show (rest ++ setAdd s.inUse r).Nodup
      rw [hsa, ← List.append_assoc]
      exact ((List.perm_append_singleton r (rest ++ s.inUse)).nodup_iff).mpr hnd
    · intro x hx
      apply h4
      simp only [hsa, ← List.append_assoc] at hx
      rcases List.mem_append.mp hx with hx | hx
      · rcases List.mem_append.mp hx with hx | hx
        · exact List.mem_append.mpr (Or.inl (List.mem_cons_of_mem r hx))
        · exact List.mem_append.mpr (Or.inr hx)
      · simp only [List.mem_singleton] at hx
        subst hx
        exact List.mem_append.mpr (Or.inl (List.mem_cons_self _ _))
  | nil =>
    rw [hu] at h1 h3 h4
    simp only [List.nil_append, List.length_nil, Nat.zero_add] at h1 h3 h4
    by_cases hc : s.resourceCount < max
    · have hfresh : s.resourceCount ∉ s.inUse := fun hm =>
        Nat.lt_irrefl _ (h4 _ hm)
      have hsa : setAdd s.inUse s.resourceCount
          = s.inUse ++ [s.resourceCount] := setAdd_of_not_mem _ _ hfresh
      rw [acquire_eq_create max s hu hc]
      refine ⟨?_, hc, ?_, ?_, h5⟩
      · show s.unused.length + (setAdd s.inUse s.resourceCount).length
          = s.resourceCount + 1
        rw [hu, hsa]
        simp only [List.length_nil, List.length_append, List.length_singleton]
        omega
      · show (s.unused ++ setAdd s.inUse s.resourceCount).Nodup
        rw [hu, hsa]
        simp [List.nodup_append, h3, hfresh]
      · intro x hx
        simp only [hu, hsa, List.nil_append, List.mem_append,
          List.mem_singleton] at hx
        rcases hx with hx | hx
        · exact Nat.lt_succ_of_lt (h4 _ hx)
        · subst hx
          exact Nat.lt_succ_self _
    · rw [acquire_eq_suspend max s hu hc]
      refine ⟨?_, h2, ?_, ?_, ?_⟩
      · show s.unused.length + s.inUse.length = s.resourceCount
        rw [hu]
        simpa using h1
      · show (s.unused ++ s.inUse).Nodup
        rw [hu]
        simpa using h3
      · intro x hx
        apply h4
        rw [hu] at hx
        simpa using hx
      · show s.suspended ++ [s.nextWaiter]
          = s.served ++ (s.waiting ++ [s.nextWaiter])
        rw [h5, List.append_assoc]

theorem release_inv (max : Nat) (s s' : St) (r : Nat) (h : Inv max s)
    (hr : release s r = .ok s') : Inv max s' := by
  obtain ⟨h1, h2, h3, h4, h5⟩ := h
  by_cases hm : r ∈ s.inUse
  · have hiu : s.inUse.Nodup := (List.nodup_append.mp h3).2.1
    have hlen : (s.inUse.erase r).length = s.inUse.length - 1 :=
      List.length_erase_of_mem hm
    have hrer : r ∉ s.inUse.erase r := fun hc =>
      ((hiu.mem_erase_iff).mp hc).1 rfl
    have hperm : List.Perm (s.inUse.erase r ++ [r]) s.inUse :=
      (List.perm_append_singleton r (s.inUse.erase r)).trans
        (List.perm_cons_erase hm).symm
    have hpos : 1 ≤ s.inUse.length := List.length_pos.mpr
      (fun hnil => by simp [hnil] at hm)
    cases hw : s.waiting with
    | cons w rest =>
      rw [release_eq_serve s r w rest hm hw] at hr
      cases hr
      refine ⟨?_, h2, ?_, ?_, ?_⟩
      · show s.unused.length + (setAdd (s.inUse.erase r) r).length
          = s.resourceCount
        rw [setAdd_of_not_mem _ _ hrer]
        simp only [List.length_append, List.length_singleton, hlen]
        omega
      · show (s.unused ++ setAdd (s.inUse.erase r) r).Nodup
        rw [setAdd_of_not_mem _ _ hrer]
        exact ((List.Perm.append_left s.unused hperm).nodup_iff).mpr h3
      · intro x hx
        apply h4
        simp only [setAdd_of_not_mem _ _ hrer] at hx
        rcases List.mem_append.mp hx with hx | hx
        · exact List.mem_append.mpr (Or.inl hx)
        · rcases List.mem_append.mp hx with hx | hx
          · exact List.mem_append.mpr
              (Or.inr (List.erase_subset r s.inUse hx))
          · simp only [List.mem_singleton] at hx
            subst hx
            exact List.mem_append.mpr (Or.inr hm)
      · show s.suspended = (s.served ++ [w]) ++ rest
        rw [h5, hw, List.append_assoc]
        rfl
    | nil =>
      rw [release_eq_requeue s r hm hw] at hr
      cases hr
      refine ⟨?_, h2, ?_, ?_, ?_⟩
      · show (s.unused ++ [r]).length + (s.inUse.erase r).length
          = s.resourceCount
        simp only [List.length_append, List.length_singleton, hlen]
        omega
      · show ((s.unused ++ [r]) ++ s.inUse.erase r).Nodup
        have hp : List.Perm ((s.unused ++ [r]) ++ s.inUse.erase r)
            (s.unused ++ s.inUse) := by
          rw [List.append_assoc]
          exact List.Perm.append_left s.unused
            ((List.perm_append_singleton r (s.inUse.erase r)).symm.trans
              hperm)
        exact (hp.nodup_iff).mpr h3
      · intro x hx
        apply h4
        rcases List.mem_append.mp hx with hx | hx
        · rcases List.mem_append.mp hx with hx | hx
          · exact List.mem_append.mpr (Or.inl hx)
          · simp only [List.mem_singleton] at hx
            subst hx
            exact List.mem_append.mpr (Or.inr hm)
        · exact List.mem_append.mpr
            (Or.inr (List.erase_subset r s.inUse hx))
      · show s.suspended = s.served ++ s.waiting
        exact h5
  · unfold release at hr
    rw [if_neg hm] at hr
    cases hr

theorem step_inv (max : Nat) (s s' : St) (op : Op) (h : Inv max s)
    (hnd : op ≠ Op.drain) (hs : step max s op = .ok s') : Inv max s' := by
  cases op with
  | acquire =>
    cases hs
    exact acquire_inv max s h
  | release r => exact release_inv max s s' r h hs
  | drain => exact absurd rfl hnd

theorem runFrom_inv (max : Nat) (ops : List Op) (s s' : St) (h : Inv max s)
    (hnd : Op.drain ∉ ops) (hr : runFrom max s ops = .ok s') :
    Inv max s' := by
  induction ops generalizing s with
  | nil =>
    simp only [runFrom] at hr
    cases hr
    exact h
  | cons op rest ih =>
    simp only [runFrom] at hr
    cases hstep : step max s op with
    | error e => rw [hstep] at hr; cases hr
    | ok s₁ =>
      rw [hstep] at hr
      exact ih s₁
        (step_inv max s s₁ op h (fun he => hnd (by simp [he])) hstep)
        (fun hmem => hnd (List.mem_cons_of_mem _ hmem)) hr

theorem empty_inv (max : Nat) : Inv max empty := by
  refine ⟨rfl, Nat.zero_le _, ?_, ?_, rfl⟩ <;> simp [empty]

theorem run_inv (max : Nat) (ops : List Op) (s : St)
    (hnd : Op.drain ∉ ops) (hr : run max ops = .ok s) : Inv max s :=
  runFrom_inv max ops empty s (empty_inv max) hnd hr

end ResourcePool

/-- C6 counterexample: on the trace acquire; release; drainAll with
capacity 1, the final state has 0 unused and 0 checked-out resources but
an owned count (`resourceCount`) of 1: `destroyAll` empties the unused
queue without ever decrementing the owned counter, so
available + checked_out no longer equals owned after a drain. -/
theorem pool_drain_counterexample :
    ResourcePool.run 1 [ResourcePool.Op.acquire, ResourcePool.Op.release 0,
        ResourcePool.Op.drain] =
      Except.ok (⟨[], [], 1, [], 0, [], []⟩ : ResourcePool.St) ∧
    (⟨[], [], 1, [], 0, [], []⟩ : ResourcePool.St).unused.length
        + (⟨[], [], 1, [], 0, [], []⟩ : ResourcePool.St).inUse.length
      ≠ (⟨[], [], 1, [], 0, [], []⟩ : ResourcePool.St).resourceCount := by
  exact ⟨rfl, by decide⟩

/-- C6 amended: for every sequence of acquire and release operations (no
drain), every reachable pool state satisfies
unused + checked_out = owned ≤ max, and an acquire enqueues a waiter only
in a state where the number of checked-out resources equals max and no
unused resource exists. After a drain the equality fails, because
`destroyAll` empties the unused queue without decrementing the owned
counter. -/
theorem pool_invariant_no_drain (max : Nat) (ops : List ResourcePool.Op)
    (s : ResourcePool.St) (hnd : ResourcePool.Op.drain ∉ ops)
    (hr : ResourcePool.run max ops = .ok s) :
    (s.unused.length + s.inUse.length = s.resourceCount ∧
      s.resourceCount ≤ max) ∧
    (∀ s', ResourcePool.step max s ResourcePool.Op.acquire = .ok s' →
      s.waiting.length < s'.waiting.length →
      s.inUse.length = max ∧ s.unused = []) := by
  obtain ⟨h1, h2, h3, h4, h5⟩ := ResourcePool.run_inv max ops s hnd hr
  refine ⟨⟨h1, h2⟩, ?_⟩
  intro s' hstep hgrow
  have hs' : s' = ResourcePool.acquire max s := by
    simpa [ResourcePool.step] using hstep.symm
  subst hs'
  cases hu : s.unused with
  | cons r rest =>
    rw [ResourcePool.acquire_eq_take max s r rest hu] at hgrow
    exact absurd hgrow (by simp)
  | nil =>
    by_cases hc : s.resourceCount < max
    · rw [ResourcePool.acquire_eq_create max s hu hc] at hgrow
      exact absurd hgrow (by simp)
    · refine ⟨?_, rfl⟩
      rw [hu] at h1
      simp only [List.length_nil, Nat.zero_add] at h1
      omega

/-- C6 amended witness: one acquire on a pool of capacity 1. -/
theorem pool_invariant_no_drain_witness :
    (((⟨[], [0], 1, [], 0, [], []⟩ : ResourcePool.St).unused.length
        + (⟨[], [0], 1, [], 0, [], []⟩ : ResourcePool.St).inUse.length
        = (⟨[], [0], 1, [], 0, [], []⟩ : ResourcePool.St).resourceCount ∧
      (⟨[], [0], 1, [], 0, [], []⟩ : ResourcePool.St).resourceCount ≤ 1) ∧
    (∀ s', ResourcePool.step 1 (⟨[], [0], 1, [], 0, [], []⟩ : ResourcePool.St)
        ResourcePool.Op.acquire = .ok s' →
      (⟨[], [0], 1, [], 0, [], []⟩ : ResourcePool.St).waiting.length
        < s'.waiting.length →
      (⟨[], [0], 1, [], 0, [], []⟩ : ResourcePool.St).inUse.length = 1 ∧
      (⟨[], [0], 1, [], 0, [], []⟩ : ResourcePool.St).unused = [])) :=
  pool_invariant_no_drain 1 [ResourcePool.Op.acquire]
    (⟨[], [0], 1, [], 0, [], []⟩ : ResourcePool.St) (by decide) rfl

/-- C7: in every reachable pool state the suspension ledger equals the
already-served waiters followed by the still-waiting ones, so suspended
acquires complete exactly in suspension order; moreover a release in a
state with a non-empty waiter FIFO hands the resource directly to the
head waiter — the unused queue is left untouched, the head waiter is
dequeued and marked served, and the resource goes straight back into the
in-use set. -/
theorem pool_fifo_fairness (max : Nat) (ops : List ResourcePool.Op)
    (s : ResourcePool.St) (hnd : ResourcePool.Op.drain ∉ ops)
    (hr : ResourcePool.run max ops = .ok s) :
    s.suspended = s.served ++ s.waiting ∧
    (∀ r w rest, r ∈ s.inUse → s.waiting = w :: rest →
      ResourcePool.release s r = .ok
        { s with inUse := ResourcePool.setAdd (s.inUse.erase r) r
                 waiting := rest
                 served := s.served ++ [w] }) := by
  obtain ⟨h1, h2, h3, h4, h5⟩ := ResourcePool.run_inv max ops s hnd hr
  exact ⟨h5, fun r w rest hm hw =>
    ResourcePool.release_eq_serve s r w rest hm hw⟩

/-- C7 witness: two acquires on a capacity-1 pool; the second suspends. -/
theorem pool_fifo_fairness_witness :
    (⟨[], [0], 1, [0], 1, [0], []⟩ : ResourcePool.St).suspended
      = (⟨[], [0], 1, [0], 1, [0], []⟩ : ResourcePool.St).served
        ++ (⟨[], [0], 1, [0], 1, [0], []⟩ : ResourcePool.St).waiting ∧
    (∀ r w rest,
      r ∈ (⟨[], [0], 1, [0], 1, [0], []⟩ : ResourcePool.St).inUse →
      (⟨[], [0], 1, [0], 1, [0], []⟩ : ResourcePool.St).waiting = w :: rest →
      ResourcePool.release (⟨[], [0], 1, [0], 1, [0], []⟩ : ResourcePool.St) r
        = .ok
        { (⟨[], [0], 1, [0], 1, [0], []⟩ : ResourcePool.St) with
            inUse := ResourcePool.setAdd
              ((⟨[], [0], 1, [0], 1, [0], []⟩ : ResourcePool.St).inUse.erase r) r
            waiting := rest
            served := (⟨[], [0], 1, [0], 1, [0], []⟩ : ResourcePool.St).served
              ++ [w] }) :=
  pool_fifo_fairness 1 [ResourcePool.Op.acquire, ResourcePool.Op.acquire]
    (⟨[], [0], 1, [0], 1, [0], []⟩ : ResourcePool.St) (by decide) rfl

namespace PromiseMapOld

variable {K V : Type} [DecidableEq K]

theorem getRaw_nn (s : St K V) (k : K) (hP : alGet s.promises k = none)
    (hD : alGet s.data k = none) : getRaw s k = .ok none := by
  unfold getRaw
  rw [hP, hD]

theorem getRaw_ss (s : St K V) (k : K) (p : Nat) (d : MapData)
    (hP : alGet s.promises k = some p) (hD : alGet s.data k = some d) :
    getRaw s k = .ok (some (p, d)) := by
  unfold getRaw
  rw [hP, hD]

theorem getRaw_ns (s : St K V) (k : K) (d : MapData)
    (hP : alGet s.promises k = none) (hD : alGet s.data k = some d) :
    getRaw s k = .error .promiseUndefined := by
  unfold getRaw
  rw [hP, hD]

theorem getRaw_sn (s : St K V) (k : K) (p : Nat)
    (hP : alGet s.promises k = some p) (hD : alGet s.data k = none) :
    getRaw s k = .error .dataUndefined := by
  unfold getRaw
  rw [hP, hD]

theorem get_eq_present (s : St K V) (k : K) (p : Nat) (d : MapData)
    (h : getRaw s k = .ok (some (p, d))) : get s k = (.ok p, s) := by
  unfold get
  rw [h]

theorem get_eq_absent (s : St K V) (k : K) (h : getRaw s k = .ok none) :
    get s k = (.ok s.heap.length,
      { s with promises := alSet s.promises k s.heap.length
               data := alSet s.data k ⟨some s.heap.length, .pending⟩
               heap := s.heap ++ [Outcome.unset] }) := by
  unfold get
  rw [h]

theorem get_eq_err (s : St K V) (k : K) (e : PMErr)
    (h : getRaw s k = .error e) : get s k = (.error e, s) := by
  unfold get
  rw [h]

theorem resolve_eq_new (s : St K V) (k : K) (v : V)
    (h : getRaw s k = .ok none) :
    resolve s k v = (.ok true,
      { s with promises := alSet s.promises k s.heap.length
               data := alSet s.data k ⟨none, .pending⟩
               heap := s.heap ++ [Outcome.value v]
               tasks := s.tasks ++ [(k, PState.fulfilled)] }) := by
  unfold resolve
  rw [h]

theorem resolve_eq_pending (s : St K V) (k : K) (v : V) (p pf : Nat)
    (h : getRaw s k = .ok (some (p, ⟨some pf, .pending⟩))) :
    resolve s k v = (.ok false,
      { s with heap := settleHeap s.heap pf (.value v)
               tasks := s.tasks ++ [(k, PState.fulfilled)]
               data := alSet s.data k ⟨none, .pending⟩ }) := by
  unfold resolve
  rw [h]

theorem resolve_eq_stuck (s : St K V) (k : K) (v : V) (p : Nat) (d : MapData)
    (h : getRaw s k = .ok (some (p, d)))
    (hd : d.functions = none ∨ d.status ≠ PState.pending) :
    resolve s k v = (.error .alreadyResolved, s) := by
  unfold resolve
  rw [h]
  obtain ⟨fns, st⟩ := d
  rcases hd with hd | hd
  · cases hd
    cases st <;> rfl
  · cases fns <;> cases st <;> first
      | rfl
      | exact absurd rfl hd

theorem resolve_eq_err (s : St K V) (k : K) (v : V) (e : PMErr)
    (h : getRaw s k = .error e) : resolve s k v = (.error e, s) := by
  unfold resolve
  rw [h]

theorem reject_eq_new (s : St K V) (k : K) (r : String)
    (h : getRaw s k = .ok none) :
    reject s k r = (.ok true,
      { s with promises := alSet s.promises k s.heap.length
               data := alSet s.data k ⟨none, .rejected⟩
               heap := s.heap ++ [Outcome.errored r] }) := by
  unfold reject
  rw [h]

theorem reject_eq_pending (s : St K V) (k : K) (r : String) (p pf : Nat)
    (h : getRaw s k = .ok (some (p, ⟨some pf, .pending⟩))) :
    reject s k r = (.ok false,
      { s with heap := settleHeap s.heap pf (.errored r)
               data := alSet s.data k ⟨none, .rejected⟩ }) := by
  unfold reject
  rw [h]

theorem reject_eq_stuck (s : St K V) (k : K) (r : String) (p : Nat)
    (d : MapData) (h : getRaw s k = .ok (some (p, d)))
    (hd : d.functions = none ∨ d.status ≠ PState.pending) :
    reject s k r = (.error .alreadyRejected, s) := by
  unfold reject
  rw [h]
  obtain ⟨fns, st⟩ := d
  rcases hd with hd | hd
  · cases hd
    cases st <;> rfl
  · cases fns <;> cases st <;> first
      | rfl
      | exact absurd rfl hd

theorem reject_eq_err (s : St K V) (k : K) (r : String) (e : PMErr)
    (h : getRaw s k = .error e) : reject s k r = (.error e, s) := by
  unfold reject
  rw [h]

theorem del_eq_none (s : St K V) (k : K) (h : getRaw s k = .ok none) :
    del s k = (.ok false, s) := by
  unfold del
  rw [h]

theorem del_eq_some_fns (s : St K V) (k : K) (p pf : Nat) (st : PState)
    (h : getRaw s k = .ok (some (p, ⟨some pf, st⟩))) :
    del s k = (.ok true,
      { s with promises := alErase s.promises k
               data := alErase s.data k
               heap := settleHeap s.heap pf (.errored "deleted") }) := by
  unfold del
  rw [h]

theorem del_eq_some_nofns (s : St K V) (k : K) (p : Nat) (st : PState)
    (h : getRaw s k = .ok (some (p, ⟨none, st⟩))) :
    del s k = (.ok true,
      { s with promises := alErase s.promises k
               data := alErase s.data k }) := by
  unfold del
  rw [h]

theorem del_eq_err (s : St K V) (k : K) (e : PMErr)
    (h : getRaw s k = .error e) : del s k = (.error e, s) := by
  unfold del
  rw [h]

theorem tick_of_no_tasks (s : St K V) (h : s.tasks = []) : tick s = s := by
  unfold tick drainGo
  rw [h]
  cases s
  simp_all

end PromiseMapOld

namespace PromiseMapOld

variable {K V : Type} [DecidableEq K]

theorem data_some_of_promises_some (s : St K V) (k : K) (p : Nat)
    (h : keysEq s) (hP : alGet s.promises k = some p) :
    ∃ d, alGet s.data k = some d := by
  have hh := h k
  rw [hP] at hh
  cases hD : alGet s.data k with
  | none => rw [hD] at hh; simp at hh
  | some d => exact ⟨d, rfl⟩

theorem data_none_of_promises_none (s : St K V) (k : K)
    (h : keysEq s) (hP : alGet s.promises k = none) :
    alGet s.data k = none := by
  have hh := h k
  rw [hP] at hh
  cases hD : alGet s.data k with
  | none => rfl
  | some d => rw [hD] at hh; simp at hh

theorem drainGo_wf (ts : List (K × PState)) :
    ∀ s : St K V, keysEq s → nodupKeys s →
    (∀ x ∈ ts, (alGet s.data x.1).isSome = true) → s.tasks = [] →
    wf (drainGo s ts) := by
  induction ts with
  | nil =>
    intro s h1 h2 h3 h4
    exact ⟨h1, h2, h4⟩
  | cons x rest ih =>
    intro s h1 h2 h3 h4
    obtain ⟨k, st⟩ := x
    have hlive := h3 (k, st) (List.mem_cons_self _ _)
    have hd : ∃ d, alGet s.data k = some d := by
      cases hD : alGet s.data k with
      | none => rw [hD] at hlive; simp at hlive
      | some d => exact ⟨d, rfl⟩
    obtain ⟨d, hD⟩ := hd
    have hset : setStatus s k st
        = { s with data := alSet s.data k { d with status := st } } := by
      unfold setStatus
      rw [hD]
    rw [drainGo, hset]
    apply ih
    · intro k'
      by_cases hk : k = k'
      · subst hk
        rw [alGet_alSet_self]
        have hh := h1 k
        rw [hD] at hh
        simpa using hh
      · rw [alGet_alSet_ne _ _ _ _ hk]
        exact h1 k'
    · exact ⟨h2.1, alSet_keys_nodup _ _ _ h2.2⟩
    · intro x hx
      by_cases hk : k = x.1
      · rw [← hk, alGet_alSet_self]
        rfl
      · rw [alGet_alSet_ne _ _ _ _ hk]
        exact h3 x (List.mem_cons_of_mem _ hx)
    · exact h4

theorem tick_wf (s : St K V) (h : wfMid s) : wf (tick s) := by
  obtain ⟨h1, h2, h3⟩ := h
  unfold tick
  exact drainGo_wf s.tasks _ h1 h2 h3 rfl

theorem get_wf (s : St K V) (k : K) (h : wf s) : wf (get s k).2 := by
  obtain ⟨h1, h2, h3⟩ := h
  cases hP : alGet s.promises k with
  | some p =>
    obtain ⟨d, hD⟩ := data_some_of_promises_some s k p h1 hP
    rw [get_eq_present s k p d (getRaw_ss s k p d hP hD)]
    exact ⟨h1, h2, h3⟩
  | none =>
    have hD := data_none_of_promises_none s k h1 hP
    rw [get_eq_absent s k (getRaw_nn s k hP hD)]
    refine ⟨?_, ⟨alSet_keys_nodup _ _ _ h2.1, alSet_keys_nodup _ _ _ h2.2⟩, h3⟩
    intro k'
    by_cases hk : k = k'
    · subst hk
      rw [alGet_alSet_self, alGet_alSet_self]
      rfl
    · rw [alGet_alSet_ne _ _ _ _ hk, alGet_alSet_ne _ _ _ _ hk]
      exact h1 k'

theorem resolve_wfMid (s : St K V) (k : K) (v : V) (h : wf s) :
    wfMid (resolve s k v).2 := by
  obtain ⟨h1, h2, h3⟩ := h
  cases hP : alGet s.promises k with
  | none =>
    have hD := data_none_of_promises_none s k h1 hP
    rw [resolve_eq_new s k v (getRaw_nn s k hP hD)]
    refine ⟨?_, ⟨alSet_keys_nodup _ _ _ h2.1, alSet_keys_nodup _ _ _ h2.2⟩, ?_⟩
    · intro k'
      by_cases hk : k = k'
      · subst hk
        rw [alGet_alSet_self, alGet_alSet_self]
        rfl
      · rw [alGet_alSet_ne _ _ _ _ hk, alGet_alSet_ne _ _ _ _ hk]
        exact h1 k'
    · intro x hx
      rw [h3] at hx
      simp only [List.nil_append, List.mem_singleton] at hx
      subst hx
      rw [alGet_alSet_self]
      rfl
  | some p =>
    obtain ⟨d, hD⟩ := data_some_of_promises_some s k p h1 hP
    obtain ⟨fns, st⟩ := d
    have hgr := getRaw_ss s k p ⟨fns, st⟩ hP hD
    by_cases hlive : fns ≠ none ∧ st = PState.pending
    · obtain ⟨hfns, hst⟩ := hlive
      obtain ⟨pf, rfl⟩ := Option.ne_none_iff_exists'.mp hfns
      subst hst
      rw [resolve_eq_pending s k v p pf hgr]
      refine ⟨?_, ⟨h2.1, alSet_keys_nodup _ _ _ h2.2⟩, ?_⟩
      · intro k'
        by_cases hk : k = k'
        · subst hk
          rw [alGet_alSet_self, hP]
          rfl
        · rw [alGet_alSet_ne _ _ _ _ hk]
          exact h1 k'
      · intro x hx
        rw [h3] at hx
        simp only [List.nil_append, List.mem_singleton] at hx
        subst hx
        rw [alGet_alSet_self]
        rfl
    · have hstuck : (⟨fns, st⟩ : MapData).functions = none
          ∨ (⟨fns, st⟩ : MapData).status ≠ PState.pending := by
        by_cases hf : fns = none
        · exact Or.inl hf
        · refine Or.inr ?_
          intro hp
          exact hlive ⟨hf, hp⟩
      rw [resolve_eq_stuck s k v p ⟨fns, st⟩ hgr hstuck]
      refine ⟨h1, h2, ?_⟩
      intro x hx
      rw [h3] at hx
      simp at hx

theorem reject_wf (s : St K V) (k : K) (r : String) (h : wf s) :
    wf (reject s k r).2 := by
  obtain ⟨h1, h2, h3⟩ := h
  cases hP : alGet s.promises k with
  | none =>
    have hD := data_none_of_promises_none s k h1 hP
    rw [reject_eq_new s k r (getRaw_nn s k hP hD)]
    refine ⟨?_, ⟨alSet_keys_nodup _ _ _ h2.1, alSet_keys_nodup _ _ _ h2.2⟩, h3⟩
    intro k'
    by_cases hk : k = k'
    · subst hk
      rw [alGet_alSet_self, alGet_alSet_self]
      rfl
    · rw [alGet_alSet_ne _ _ _ _ hk, alGet_alSet_ne _ _ _ _ hk]
      exact h1 k'
  | some p =>
    obtain ⟨d, hD⟩ := data_some_of_promises_some s k p h1 hP
    obtain ⟨fns, st⟩ := d
    have hgr := getRaw_ss s k p ⟨fns, st⟩ hP hD
    by_cases hlive : fns ≠ none ∧ st = PState.pending
    · obtain ⟨hfns, hst⟩ := hlive
      obtain ⟨pf, rfl⟩ := Option.ne_none_iff_exists'.mp hfns
      subst hst
      rw [reject_eq_pending s k r p pf hgr]
      refine ⟨?_, ⟨h2.1, alSet_keys_nodup _ _ _ h2.2⟩, h3⟩
      intro k'
      by_cases hk : k = k'
      · subst hk
        rw [alGet_alSet_self, hP]
        rfl
      · rw [alGet_alSet_ne _ _ _ _ hk]
        exact h1 k'
    · have hstuck : (⟨fns, st⟩ : MapData).functions = none
          ∨ (⟨fns, st⟩ : MapData).status ≠ PState.pending := by
        by_cases hf : fns = none
        · exact Or.inl hf
        · refine Or.inr ?_
          intro hp
          exact hlive ⟨hf, hp⟩
      rw [reject_eq_stuck s k r p ⟨fns, st⟩ hgr hstuck]
      exact ⟨h1, h2, h3⟩

theorem del_wf (s : St K V) (k : K) (h : wf s) : wf (del s k).2 := by
  obtain ⟨h1, h2, h3⟩ := h
  cases hP : alGet s.promises k with
  | none =>
    have hD := data_none_of_promises_none s k h1 hP
    rw [del_eq_none s k (getRaw_nn s k hP hD)]
    exact ⟨h1, h2, h3⟩
  | some p =>
    obtain ⟨d, hD⟩ := data_some_of_promises_some s k p h1 hP
    obtain ⟨fns, st⟩ := d
    have hgr := getRaw_ss s k p ⟨fns, st⟩ hP hD
    have hkeys : ∀ k', (alGet (alErase s.promises k) k').isSome
        = (alGet (alErase s.data k) k').isSome := by
      intro k'
      by_cases hk : k = k'
      · subst hk
        rw [alGet_alErase_self _ _ h2.1, alGet_alErase_self _ _ h2.2]
        rfl
      · rw [alGet_alErase_ne _ _ _ hk, alGet_alErase_ne _ _ _ hk]
        exact h1 k'
    cases fns with
    | some pf =>
      rw [del_eq_some_fns s k p pf st hgr]
      exact ⟨hkeys,
        ⟨alErase_keys_nodup _ _ h2.1, alErase_keys_nodup _ _ h2.2⟩, h3⟩
    | none =>
      rw [del_eq_some_nofns s k p st hgr]
      exact ⟨hkeys,
        ⟨alErase_keys_nodup _ _ h2.1, alErase_keys_nodup _ _ h2.2⟩, h3⟩

theorem rejectAll_wf (s : St K V) (r : String) (h : wf s) :
    wf (rejectAll s r).2 := by
  unfold rejectAll
  generalize ((s.data.filter
    (fun kd => kd.2.status = PState.pending ∧ kd.2.functions.isSome)).map
      (·.1)) = keys
  induction keys generalizing s with
  | nil => exact h
  | cons k rest ih =>
    simp only [List.foldl]
    exact ih _ (reject_wf s k r h)

theorem clearGo_wf (ks : List K) : ∀ s : St K V, wf s →
    wf (clearGo s ks).1 := by
  induction ks with
  | nil =>
    intro s h
    exact h
  | cons k rest ih =>
    intro s h
    have hdw := del_wf s k h
    rw [clearGo]
    cases hdel : del s k with
    | mk res s' =>
      rw [hdel] at hdw
      cases res with
      | error e => exact hdw
      | ok b => exact ih s' hdw

theorem clear_wf (s : St K V) (h : wf s) : wf (clear s).1 :=
  clearGo_wf _ s h

theorem step_wf (s : St K V) (op : Op K V) (h : wf s) :
    wf (stepTick s op) := by
  cases op with
  | get k =>
    have hs := get_wf s k h
    unfold stepTick step
    rw [tick_of_no_tasks _ hs.2.2]
    exact hs
  | resolve k v =>
    exact tick_wf _ (resolve_wfMid s k v h)
  | reject k r =>
    have hs := reject_wf s k r h
    unfold stepTick step
    rw [tick_of_no_tasks _ hs.2.2]
    exact hs
  | rejectAll r =>
    have hs := rejectAll_wf s r h
    unfold stepTick step
    rw [tick_of_no_tasks _ hs.2.2]
    exact hs
  | del k =>
    have hs := del_wf s k h
    unfold stepTick step
    rw [tick_of_no_tasks _ hs.2.2]
    exact hs
  | clear =>
    have hs := clear_wf s h
    unfold stepTick step
    rw [tick_of_no_tasks _ hs.2.2]
    exact hs
  | tick =>
    unfold stepTick step
    rw [tick_of_no_tasks _ h.2.2, tick_of_no_tasks _ h.2.2]
    exact h

theorem wf_empty : wf (empty : St K V) :=
  ⟨fun _ => rfl, ⟨List.nodup_nil, List.nodup_nil⟩, rfl⟩

theorem runTick_wf (ops : List (Op K V)) : wf (runTick ops) := by
  unfold runTick
  generalize hs : (empty : St K V) = s0
  have h0 : wf s0 := hs ▸ wf_empty
  clear hs
  induction ops generalizing s0 with
  | nil => exact h0
  | cons op rest ih =>
    simp only [List.foldl]
    exact ih _ (step_wf s0 op h0)

end PromiseMapOld

/-- C10 counterexample: the public-operation sequence
`resolve(0, 5); delete(0)` issued in one event-loop turn, followed by the
microtask drain that reality always performs, leaves the legacy
`PromiseMap` with key 0 in the `data` map but not in the `promises` map:
`doResolve`'s deferred `setStatus` re-inserts a bare `{status}` control
block for the deleted key (the spread of `this.data.get(key)!` over
`undefined`). A subsequent `get(0)` then reaches `getRaw`'s
`promise is undefined` throw from the public interface. -/
theorem promiseMap_getRaw_reachable_counterexample :
    alGet (PromiseMapOld.run ([PromiseMapOld.Op.resolve 0 5,
        PromiseMapOld.Op.del 0, PromiseMapOld.Op.tick] :
        List (PromiseMapOld.Op Nat Nat))).promises 0 = none ∧
    alGet (PromiseMapOld.run ([PromiseMapOld.Op.resolve 0 5,
        PromiseMapOld.Op.del 0, PromiseMapOld.Op.tick] :
        List (PromiseMapOld.Op Nat Nat))).data 0
      = some ⟨none, PState.fulfilled⟩ ∧
    (PromiseMapOld.get (PromiseMapOld.run ([PromiseMapOld.Op.resolve 0 5,
        PromiseMapOld.Op.del 0, PromiseMapOld.Op.tick] :
        List (PromiseMapOld.Op Nat Nat))) 0).1
      = Except.error PMErr.promiseUndefined := by
  exact ⟨rfl, rfl, rfl⟩

/-- C10 amended: after every sequence of public operations in which each
operation runs in its own event-loop turn (all deferred `setStatus`
microtasks drain before the next operation), the key sets of the
`promises` and `data` maps agree, and `getRaw` returns without reaching
either of its two error branches for every key. When a `delete` or
`clear` runs in the same turn as a settling `resolve`, the deferred
status update re-inserts a data entry with no matching promise and
`getRaw` throws (see the counterexample). -/
theorem promiseMap_keysets_agree_tick_separated {K V : Type} [DecidableEq K]
    (ops : List (PromiseMapOld.Op K V)) :
    PromiseMapOld.keysEq (PromiseMapOld.runTick ops) ∧
    (∀ k, ∃ r, PromiseMapOld.getRaw (PromiseMapOld.runTick ops) k
      = Except.ok r) := by
  have h := PromiseMapOld.runTick_wf ops
  refine ⟨h.1, ?_⟩
  intro k
  cases hP : alGet (PromiseMapOld.runTick ops).promises k with
  | none =>
    have hD := PromiseMapOld.data_none_of_promises_none _ k h.1 hP
    exact ⟨none, PromiseMapOld.getRaw_nn _ k hP hD⟩
  | some p =>
    obtain ⟨d, hD⟩ := PromiseMapOld.data_some_of_promises_some _ k p h.1 hP
    exact ⟨some (p, d), PromiseMapOld.getRaw_ss _ k p d hP hD⟩
